import Mathlib

/-!
Shallow embedding of `pyxs/helpers.py` (module `pyxs.helpers`) together with
proofs about its validation and reliable-I/O primitives.

Python strings are embedded as `List Char`; a function that either returns a
value or raises an exception is embedded as `PyResult`.  The platform pieces
the module consults (`posixpath.abspath`, `errno.errorcode`, `os.strerror`,
the raw `os.read`/`os.write` primitives) are embedded faithfully where their
code is fixed (`posixpath`) and passed as explicit parameters where they are
genuine platform inputs (the errno table, `strerror`, the raw I/O calls).
-/

set_option maxHeartbeats 1000000

namespace Pyxs

/-- Characters of a Lean string literal; used to transcribe Python string
values into the `List Char` embedding. -/
def chars (s : String) : List Char := s.data

/-- The NUL character, written `"\x00"` in the Python source. -/
def pathNUL : Char := Char.ofNat 0

/-- Outcome of a Python call that either raises an exception carrying a value
(`raise`, e.g. `InvalidPath(path)`) or returns normally (`ok`). -/
inductive PyResult (ε α : Type) where
  | raise : ε → PyResult ε α
  | ok : α → PyResult ε α
deriving DecidableEq

/-- Python `str.split(sep)` for a one-character separator, as used by
`posixpath.normpath` (`path.split('/')`).  `"".split(sep) = ['']`. -/
def pySplit (sep : Char) : List Char → List (List Char)
  | [] => [[]]
  | c :: rest =>
    match pySplit sep rest with
    | [] => [[c]]
    | h :: t => if c = sep then [] :: h :: t else (c :: h) :: t

/-- The number of leading slashes kept by `posixpath.normpath`:
`initial_slashes = path.startswith('/')`, promoted to `2` when the path starts
with exactly two slashes (POSIX allows one or two initial slashes). -/
def initialSlashes (p : List Char) : Nat :=
  match p with
  | '/' :: '/' :: '/' :: _ => 1
  | '/' :: '/' :: _ => 2
  | '/' :: _ => 1
  | _ => 0

/-- The component-filtering loop of `posixpath.normpath`.  `acc` holds the
components accepted so far in reverse order (so Python's `new_comps[-1]` is
`acc.head?` and `new_comps.pop()` is `acc.tail`). -/
def normLoop (hasSlash : Bool) : List (List Char) → List (List Char) → List (List Char)
  | acc, [] => acc.reverse
  | acc, comp :: rest =>
    if comp == ([] : List Char) || comp == ['.'] then
      normLoop hasSlash acc rest
    else if !(comp == ['.', '.']) || (!hasSlash && acc.isEmpty) ||
        (!acc.isEmpty && acc.head? == some ['.', '.']) then
      normLoop hasSlash (comp :: acc) rest
    else if !acc.isEmpty then
      normLoop hasSlash acc.tail rest
    else
      normLoop hasSlash acc rest

/-- The string `posixpath.normpath` assembles before its final
`return path or dot`. -/
def normpathBody (p : List Char) : List Char :=
  List.replicate (initialSlashes p) '/' ++
    List.intercalate ['/'] (normLoop (initialSlashes p != 0) [] (pySplit '/' p))

/-- Python `posixpath.normpath`: returns `'.'` for the empty path, otherwise
normalises and falls back to `'.'` when everything cancels out
(`return path or dot`). -/
def normpath (p : List Char) : List Char :=
  if p = [] then ['.']
  else if normpathBody p = [] then ['.']
  else normpathBody p

/-- Python `posixpath.join(a, b)` for exactly two arguments, as called by
`posixpath.abspath`. -/
def posixJoin (a b : List Char) : List Char :=
  if b.head? = some '/' then b
  else if a = [] ∨ a.getLast? = some '/' then a ++ b
  else a ++ '/' :: b

/-- Python `posixpath.abspath(path)`: joins a relative path onto the current
working directory (`cwd`, the value of `os.getcwd()`, passed explicitly here)
and normalises. -/
def abspath (cwd p : List Char) : List Char :=
  if p.head? = some '/' then normpath p else normpath (posixJoin cwd p)

/-- The character class of the path regex in `validate_path`: ASCII letters,
decimal digits, dash, slash, underscore and at-sign (the dash after the digit
range in the pattern is a literal dash). -/
def pathClassChar (c : Char) : Bool :=
  decide (('a' ≤ c ∧ c ≤ 'z') ∨ ('A' ≤ c ∧ c ≤ 'Z') ∨ ('0' ≤ c ∧ c ≤ '9') ∨
    c = '-' ∨ c = '/' ∨ c = '_' ∨ c = '@')

/-- Drops a final character `c` from `s` when present, keeping `s` unchanged
otherwise.  Used to express Python `re` matching of `x?$`: in Python (without
`re.MULTILINE`) `$` matches at the end of the string or just before a single
trailing newline. -/
def stripLast (c : Char) (s : List Char) : List Char :=
  if s.getLast? = some c then s.dropLast else s

/-- Python matching of the anchored path pattern (one or more class
characters, then an optional NUL, then a dollar anchor) viewed as a Boolean.
In Python, the dollar anchor also matches just before a single trailing
newline, so the matched language additionally allows one final newline. -/
def matchPathRegex (s : List Char) : Bool :=
  let s2 := stripLast pathNUL (stripLast '\n' s)
  !s2.isEmpty && s2.all pathClassChar

/-- Python `"//" in path`: does the string contain two consecutive slashes. -/
def hasDoubleSlash : List Char → Bool
  | c :: d :: rest => (c == '/' && d == '/') || hasDoubleSlash (d :: rest)
  | _ => false

/-- The `max_len` computed by `validate_path`:
`3072 if posixpath.abspath(path) else 2048` (Python truthiness of a string is
non-emptiness). -/
def max_len (cwd path : List Char) : Nat :=
  if abspath cwd path = [] then 2048 else 3072

/-- `pyxs.helpers.validate_path`: regex-and-length gate followed by the
trailing-slash / double-slash gate; raises `InvalidPath(path)` on violation
and returns the path itself on success. -/
def validate_path (cwd path : List Char) : PyResult (List Char) (List Char) :=
  if ¬ (matchPathRegex path = true ∧ path.length ≤ max_len cwd path) then .raise path
  else if (1 < path.length ∧ path.getLast? = some '/') ∨ hasDoubleSlash path = true then
    .raise path
  else .ok path

/-- Python `re.match("^@(?:introduceDomain|releaseDomain)\x00?$", wpath)` as a
Boolean, with the same Python `$` semantics as `matchPathRegex`. -/
def matchWatchRegex (w : List Char) : Bool :=
  let s2 := stripLast pathNUL (stripLast '\n' w)
  s2 == chars "@introduceDomain" || s2 == chars "@releaseDomain"

/-- `pyxs.helpers.validate_watch_path`: an `@`-prefixed path must match the
special-token regex; every path that survives that gate (including matching
`@`-tokens) is then run through `validate_path`, and `wpath` is returned. -/
def validate_watch_path (cwd w : List Char) : PyResult (List Char) (List Char) :=
  if w.head? = some '@' ∧ matchWatchRegex w = false then .raise w
  else
    match validate_path cwd w with
    | .raise e => .raise e
    | .ok _ => .ok w

/-- Python `re.match("[wrbn]\d+", perm)` as a Boolean: an unanchored-at-the-end
prefix match, so it only requires the first character to be one of `wrbn` and
the second to be a decimal digit. -/
def matchPermRegex (p : List Char) : Bool :=
  match p with
  | c :: d :: _ =>
      (c == 'w' || c == 'r' || c == 'b' || c == 'n') &&
        (decide ('0' ≤ d) && decide (d ≤ '9'))
  | _ => false

/-- The first permission token of `perms` failing `matchPermRegex`, if any;
this is the token whose check makes `validate_perms` raise. -/
def findBadPerm : List (List Char) → Option (List Char)
  | [] => none
  | p :: rest => if matchPermRegex p then findBadPerm rest else some p

/-- `pyxs.helpers.validate_perms`: raises `InvalidPermission(perm)` at the
first token failing the regex, otherwise returns `perms` unchanged. -/
def validate_perms (perms : List (List Char)) : PyResult (List Char) (List (List Char)) :=
  match findBadPerm perms with
  | some p => .raise p
  | none => .ok perms

/-- The module-level `_codeerror` reverse dictionary lookup:
`dict((message, code) for code, message in errno.errorcode.items()).get(name)`.
In a Python dict comprehension a later item overrides an earlier one with the
same key, hence the search over the reversed item list. -/
def codeerrorGet (errorcode : List (Nat × List Char)) (name : List Char) : Option Nat :=
  ((errorcode.map fun pr => (pr.2, pr.1)).reverse.find? fun pr => pr.1 == name).map
    fun pr => pr.2

/-- `pyxs.helpers.error`: a string argument is first translated through
`_codeerror.get(smth, 0)`; the result is `PyXSError(code, os.strerror(code))`,
embedded as the pair of the code and the message.  `errorcode` is the platform
`errno.errorcode` table and `strerror` the platform `os.strerror`. -/
def error (errorcode : List (Nat × List Char)) (strerror : Nat → List Char) :
    List Char ⊕ Nat → Nat × List Char
  | .inl name =>
      ((codeerrorGet errorcode name).getD 0, strerror ((codeerrorGet errorcode name).getD 0))
  | .inr code => (code, strerror code)

/-! ### Basic facts about the `posixpath` model -/

/-- `posixpath.normpath` never returns the empty string: both fallback
branches return `'.'`. -/
lemma normpath_ne_nil (p : List Char) : normpath p ≠ [] := by
  unfold normpath
  split
  · simp
  · split
    · simp
    · assumption

/-- `posixpath.abspath` never returns the empty string, whatever the current
working directory is; consequently the `2048` branch of `max_len` is
unreachable. -/
lemma abspath_ne_nil (cwd p : List Char) : abspath cwd p ≠ [] := by
  unfold abspath
  split <;> exact normpath_ne_nil _

/-- The length bound computed by `validate_path` is `3072` for every input,
relative paths included. -/
lemma max_len_eq (cwd p : List Char) : max_len cwd p = 3072 := by
  unfold max_len
  rw [if_neg (abspath_ne_nil cwd p)]

/-- `validate_path` with the always-3072 bound substituted in; this removes
the dependence on the current working directory. -/
lemma validate_path_eq (cwd p : List Char) :
    validate_path cwd p =
      if ¬ (matchPathRegex p = true ∧ p.length ≤ 3072) then .raise p
      else if (1 < p.length ∧ p.getLast? = some '/') ∨ hasDoubleSlash p = true then .raise p
      else .ok p := by
  unfold validate_path
  rw [max_len_eq]

/-- `validate_path` only ever returns its own argument on success. -/
lemma validate_path_ok_eq {cwd p r : List Char} (h : validate_path cwd p = .ok r) :
    r = p := by
  rw [validate_path_eq] at h
  split at h
  · cases h
  · split at h
    · cases h
    · cases h
      rfl

/-! ### C6: concrete `validate_path` examples -/

/-- C6: `validate_path` accepts the root `"/"` and `"/a/b"`, returning the
argument unchanged, and raises `InvalidPath` on `"/a/b/"` (trailing slash),
`"/a//b"` (double slash) and `""` (empty string fails the grammar) — for
every current working directory. -/
theorem validate_path_examples (cwd : List Char) :
    validate_path cwd (chars "/") = .ok (chars "/") ∧
    validate_path cwd (chars "/a/b") = .ok (chars "/a/b") ∧
    validate_path cwd (chars "/a/b/") = .raise (chars "/a/b/") ∧
    validate_path cwd (chars "/a//b") = .raise (chars "/a//b") ∧
    validate_path cwd (chars "") = .raise (chars "") := by
  simp only [validate_path_eq]
  decide

/-! ### C10: a NUL-terminated path ending in a slash before the NUL -/

/-- C10: `validate_path` accepts the NUL-terminated input whose last
character before the NUL terminator is a slash: the trailing-slash check
inspects only the literal last character (the NUL) and the double-slash check
never fires on the slash-NUL pair, so the path is returned as valid even
though, once the NUL terminator is stripped, it ends in a slash. -/
theorem validate_path_nul_slash (cwd : List Char) :
    validate_path cwd (chars "/a/\x00") = .ok (chars "/a/\x00") ∧
    (stripLast pathNUL (chars "/a/\x00")).getLast? = some '/' ∧
    1 < (chars "/a/\x00").length := by
  simp only [validate_path_eq]
  decide

/-! ### C4: the relative-path length bound -/

lemma getLast?_replicate_succ (n : Nat) (c : Char) :
    (List.replicate (n + 1) c).getLast? = some c := by
  induction n with
  | zero => rfl
  | succ m ih =>
    rw [List.replicate_succ, List.replicate_succ]
    rw [List.getLast?_cons_cons]
    rw [← List.replicate_succ]
    exact ih

lemma hasDoubleSlash_replicate_a (n : Nat) :
    hasDoubleSlash (List.replicate n 'a') = false := by
  induction n with
  | zero => rfl
  | succ m ih =>
    cases m with
    | zero => rfl
    | succ k =>
      rw [List.replicate_succ, List.replicate_succ]
      show (('a' == '/' && 'a' == '/') || hasDoubleSlash ('a' :: List.replicate k 'a')) = false
      rw [← List.replicate_succ]
      simpa using ih

/-- A nonempty string made only of class characters matches the path regex:
its last character is a class character, hence neither a newline nor a NUL,
so both optional-suffix strips are the identity. -/
lemma matchPathRegex_of_all (s : List Char) (hne : s ≠ [])
    (hall : s.all pathClassChar = true) : matchPathRegex s = true := by
  have hlast : ∀ c, s.getLast? = some c → pathClassChar c = true := by
    intro c hc
    have hmem : c ∈ s := by
      have h0 : s.getLast? = some (s.getLast hne) := List.getLast?_eq_getLast s hne
      rw [h0] at hc
      cases hc
      exact List.getLast_mem hne
    exact List.all_eq_true.mp hall c hmem
  have h1 : stripLast '\n' s = s := by
    unfold stripLast
    rw [if_neg]
    intro hc
    have := hlast '\n' hc
    simp [pathClassChar] at this
  have h2 : stripLast pathNUL s = s := by
    unfold stripLast
    rw [if_neg]
    intro hc
    have := hlast pathNUL hc
    simp [pathClassChar, pathNUL] at this
  unfold matchPathRegex
  rw [h1, h2]
  simp [hall, List.isEmpty_iff, hne]

lemma replicate_a_ne_nil (n : Nat) (h : n ≠ 0) : List.replicate n 'a' ≠ [] := by
  intro he
  apply h
  simpa using congrArg List.length he

lemma all_class_replicate_a (n : Nat) :
    (List.replicate n 'a').all pathClassChar = true := by
  rw [List.all_eq_true]
  intro c hc
  rw [List.eq_of_mem_replicate hc]
  decide

/-- C4 (the code side): `validate_path` accepts an otherwise well-formed
relative path of length 2049 — the `2048` relative bound never applies,
because `posixpath.abspath` never returns an empty (falsy) string, so
`max_len` is `3072` for every path.  The same 2049-length string made
absolute is also accepted, as the claim says. -/
theorem validate_path_relative_bound_dead (cwd : List Char) :
    validate_path cwd (List.replicate 2049 'a') = .ok (List.replicate 2049 'a') ∧
    2048 < (List.replicate 2049 'a').length ∧
    (List.replicate 2049 'a').head? ≠ some '/' ∧
    validate_path cwd ('/' :: List.replicate 2048 'a') =
      .ok ('/' :: List.replicate 2048 'a') := by
  refine ⟨?_, ?_, ?_, ?_⟩
  · rw [validate_path_eq, if_neg, if_neg]
    · rintro (⟨_, hl⟩ | hd)
      · rw [show (2049 : Nat) = 2048 + 1 from rfl, getLast?_replicate_succ] at hl
        cases hl
      · rw [hasDoubleSlash_replicate_a] at hd
        cases hd
    · rw [not_not]
      refine ⟨?_, ?_⟩
      · exact matchPathRegex_of_all _ (replicate_a_ne_nil 2049 (by omega))
          (all_class_replicate_a 2049)
      · rw [List.length_replicate]
        omega
  · rw [List.length_replicate]
    omega
  · rw [show (2049 : Nat) = 2048 + 1 from rfl, List.replicate_succ]
    intro h
    cases h
  · rw [validate_path_eq, if_neg, if_neg]
    · rintro (⟨_, hl⟩ | hd)
      · rw [show (2048 : Nat) = 2047 + 1 from rfl, List.replicate_succ,
          List.getLast?_cons_cons, ← List.replicate_succ,
          getLast?_replicate_succ] at hl
        cases hl
      · rw [show (2048 : Nat) = 2047 + 1 from rfl, List.replicate_succ] at hd
        have hstep : hasDoubleSlash ('/' :: 'a' :: List.replicate 2047 'a') =
            hasDoubleSlash ('a' :: List.replicate 2047 'a') := by
          show (('/' == '/' && 'a' == '/') || _) = _
          rw [show ('/' == '/' && 'a' == '/') = false from rfl, Bool.false_or]
        rw [hstep, ← List.replicate_succ, hasDoubleSlash_replicate_a] at hd
        cases hd
    · rw [not_not]
      refine ⟨?_, ?_⟩
      · refine matchPathRegex_of_all _ (by intro h; cases h) ?_
        rw [List.all_eq_true]
        intro c hc
        rcases List.mem_cons.mp hc with rfl | hc
        · decide
        · rw [List.eq_of_mem_replicate hc]
          decide
      · rw [List.length_cons, List.length_replicate]
        omega

/-! ### C3: wire-safety of accepted paths -/

/-- Every string splits as its `stripLast` part followed by the stripped
character (when one was stripped). -/
lemma stripLast_decomp (c : Char) (s : List Char) :
    s = stripLast c s ++ (if s.getLast? = some c then [c] else []) := by
  unfold stripLast
  by_cases h : s.getLast? = some c
  · rw [if_pos h, if_pos h]
    have hne : s ≠ [] := by
      intro he
      rw [he] at h
      cases h
    have hg : s.getLast hne = c := by
      have h0 : s.getLast? = some (s.getLast hne) := List.getLast?_eq_getLast s hne
      rw [h0] at h
      cases h
      rfl
    conv_lhs => rw [← List.dropLast_append_getLast hne]
    rw [hg]
  · rw [if_neg h, if_neg h]
    simp

/-- Forward characterisation of the path regex: a matching string is one or
more class characters, then an optional single NUL, then an optional single
newline (the Python dollar-anchor artefact). -/
lemma matchPathRegex_decomp (p : List Char) (h : matchPathRegex p = true) :
    ∃ core nul nl, p = core ++ nul ++ nl ∧ core ≠ [] ∧
      core.all pathClassChar = true ∧
      (nul = [] ∨ nul = [pathNUL]) ∧ (nl = [] ∨ nl = ['\n']) := by
  unfold matchPathRegex at h
  rw [Bool.and_eq_true, Bool.not_eq_true', List.isEmpty_eq_false] at h
  obtain ⟨hne, hall⟩ := h
  refine ⟨stripLast pathNUL (stripLast '\n' p),
    (if (stripLast '\n' p).getLast? = some pathNUL then [pathNUL] else []),
    (if p.getLast? = some '\n' then ['\n'] else []), ?_, hne, hall, ?_, ?_⟩
  · conv_lhs => rw [stripLast_decomp '\n' p]
    congr 1
    exact stripLast_decomp pathNUL (stripLast '\n' p)
  · split
    · right
      rfl
    · left
      rfl
  · split
    · right
      rfl
    · left
      rfl

/-- `hasDoubleSlash` is exactly the occurrence of two consecutive slashes. -/
lemma hasDoubleSlash_iff (p : List Char) :
    hasDoubleSlash p = true ↔ ∃ l r, p = l ++ '/' :: '/' :: r := by
  induction p with
  | nil =>
    constructor
    · intro h
      cases h
    · rintro ⟨l, r, hl⟩
      cases l <;> cases hl
  | cons c tail ih =>
    cases tail with
    | nil =>
      constructor
      · intro h
        cases h
      · rintro ⟨l, r, hl⟩
        rcases l with _ | ⟨x, l⟩
        · cases hl
        · rcases l with _ | ⟨y, l⟩ <;> cases hl
    | cons d rest =>
      show ((c == '/' && d == '/') || hasDoubleSlash (d :: rest)) = true ↔ _
      rw [Bool.or_eq_true, Bool.and_eq_true, beq_iff_eq, beq_iff_eq, ih]
      constructor
      · rintro (⟨rfl, rfl⟩ | ⟨l, r, hl⟩)
        · exact ⟨[], rest, rfl⟩
        · exact ⟨c :: l, r, by rw [List.cons_append, ← hl]⟩
      · rintro ⟨l, r, hl⟩
        rcases l with _ | ⟨x, l⟩
        · rw [List.nil_append] at hl
          injection hl with h1 h2
          injection h2 with h2a h2b
          exact Or.inl ⟨h1, h2a⟩
        · right
          rw [List.cons_append] at hl
          injection hl with h1 h2
          exact ⟨l, r, h2⟩

/-- The wire-safety property exactly as the claim words it (no newline
allowance): class characters only, an optional single trailing NUL and
nothing else, bounded length, no trailing slash except the root, and no
double slash. -/
def claimWireSafe (p : List Char) : Bool :=
  (!(stripLast pathNUL p).isEmpty && (stripLast pathNUL p).all pathClassChar) &&
    decide (p.length ≤ 3072) &&
    (decide (p.getLast? ≠ some '/') || p == ['/']) &&
    !hasDoubleSlash p

/-- C3 counterexample: `validate_path` accepts `"/a\n"` (the Python dollar
anchor matches before the trailing newline), but that string is not
wire-safe in the claim's sense — it is not made of class characters followed
by at most a NUL: its last character is a newline, not a NUL, and a newline
is outside the class. -/
theorem validate_path_wire_safe_cex :
    validate_path (chars "/") (chars "/a\n") = .ok (chars "/a\n") ∧
    claimWireSafe (chars "/a\n") = false ∧
    pathClassChar '\n' = false ∧
    (chars "/a\n").getLast? ≠ some pathNUL := by
  decide

/-- C3 as amended: every path accepted by `validate_path` is returned
unchanged and satisfies the wire-safety conditions with the grammar enlarged
by one optional trailing newline: one or more class characters, an optional
single NUL, then an optional single newline and nothing else; length at most
3072; no trailing slash as the literal last character unless the path is
exactly the root; and no double-slash substring. -/
theorem validate_path_wire_safe (cwd p r : List Char)
    (h : validate_path cwd p = .ok r) :
    r = p ∧
    (∃ core nul nl, p = core ++ nul ++ nl ∧ core ≠ [] ∧
      core.all pathClassChar = true ∧
      (nul = [] ∨ nul = [pathNUL]) ∧ (nl = [] ∨ nl = ['\n'])) ∧
    p.length ≤ 3072 ∧
    (p.getLast? = some '/' → p = ['/']) ∧
    ¬ ∃ l r2, p = l ++ '/' :: '/' :: r2 := by
  rw [validate_path_eq] at h
  split at h
  · cases h
  · rename_i hgate
    rw [not_not] at hgate
    split at h
    · cases h
    · rename_i hslash
      cases h
      push_neg at hslash
      obtain ⟨hside, hdbl⟩ := hslash
      refine ⟨rfl, matchPathRegex_decomp p hgate.1, hgate.2, ?_, ?_⟩
      · intro hlast
        have hlen : ¬ 1 < p.length := fun hgt => (hside hgt).elim hlast
        have hne : p ≠ [] := by
          intro he
          rw [he] at hlast
          cases hlast
        have h1 : p.length = 1 := by
          have := List.length_pos.mpr hne
          omega
        rcases p with _ | ⟨x, _ | ⟨y, t⟩⟩
        · cases hlast
        · cases hlast
          rfl
        · simp at h1
      · intro hex
        rw [← hasDoubleSlash_iff] at hex
        rw [hex] at hdbl
        exact hdbl rfl

/-- Witness for `validate_path_wire_safe` at the concrete accepted path
`"/a/b"`. -/
theorem validate_path_wire_safe_witness :
    chars "/a/b" = chars "/a/b" ∧
    (∃ core nul nl, chars "/a/b" = core ++ nul ++ nl ∧ core ≠ [] ∧
      core.all pathClassChar = true ∧
      (nul = [] ∨ nul = [pathNUL]) ∧ (nl = [] ∨ nl = ['\n'])) ∧
    (chars "/a/b").length ≤ 3072 ∧
    ((chars "/a/b").getLast? = some '/' → chars "/a/b" = ['/']) ∧
    ¬ ∃ l r2, chars "/a/b" = l ++ '/' :: '/' :: r2 :=
  validate_path_wire_safe (chars "/") (chars "/a/b") (chars "/a/b") (by decide)

/-! ### C7: watch paths -/

/-- The `@`-prefixed strings `validate_watch_path` actually accepts: the two
special tokens, each optionally NUL-terminated, each optionally followed by a
single trailing newline (the Python dollar-anchor artefact). -/
def watchSpecials : List (List Char) :=
  [chars "@introduceDomain", chars "@introduceDomain\x00",
   chars "@introduceDomain\n", chars "@introduceDomain\x00\n",
   chars "@releaseDomain", chars "@releaseDomain\x00",
   chars "@releaseDomain\n", chars "@releaseDomain\x00\n"]

/-- The watch regex matches exactly the eight strings of `watchSpecials`. -/
lemma matchWatchRegex_iff (w : List Char) :
    matchWatchRegex w = true ↔ w ∈ watchSpecials := by
  constructor
  · intro h
    unfold matchWatchRegex at h
    rw [Bool.or_eq_true, beq_iff_eq, beq_iff_eq] at h
    have hw : w = (stripLast pathNUL (stripLast '\n' w) ++
        (if (stripLast '\n' w).getLast? = some pathNUL then [pathNUL] else [])) ++
        (if w.getLast? = some '\n' then ['\n'] else []) := by
      conv_lhs => rw [stripLast_decomp '\n' w]
      congr 1
      exact stripLast_decomp pathNUL (stripLast '\n' w)
    rw [hw]
    rcases h with h | h <;> rw [h] <;> split <;> split <;> decide
  · intro h
    simp only [watchSpecials, List.mem_cons, List.not_mem_nil, or_false] at h
    rcases h with rfl | rfl | rfl | rfl | rfl | rfl | rfl | rfl <;> decide

/-- C7 counterexample: `validate_watch_path` accepts the `@`-prefixed string
`"@introduceDomain\n"`, which is neither of the special tokens nor a
NUL-terminated special token, contradicting the claim that every other
`@`-prefixed value raises InvalidPath. -/
theorem validate_watch_path_newline_cex :
    validate_watch_path (chars "/") (chars "@introduceDomain\n") =
      .ok (chars "@introduceDomain\n") ∧
    (chars "@introduceDomain\n").head? = some '@' ∧
    chars "@introduceDomain\n" ≠ chars "@introduceDomain" ∧
    chars "@introduceDomain\n" ≠ chars "@releaseDomain" ∧
    chars "@introduceDomain\n" ≠ chars "@introduceDomain\x00" ∧
    chars "@introduceDomain\n" ≠ chars "@releaseDomain\x00" := by
  decide

/-- C7 as amended: an `@`-prefixed watch path is returned iff it is one of
the two special tokens, each optionally NUL-terminated and then optionally
followed by a single trailing newline; every other watch path behaves exactly
as under `validate_path`. -/
theorem validate_watch_path_spec (cwd w : List Char) :
    (w.head? = some '@' →
      (validate_watch_path cwd w = .ok w ↔ w ∈ watchSpecials)) ∧
    (w.head? ≠ some '@' → validate_watch_path cwd w = validate_path cwd w) := by
  constructor
  · intro hat
    unfold validate_watch_path
    cases hm : matchWatchRegex w with
    | false =>
      rw [if_pos ⟨hat, rfl⟩]
      constructor
      · intro hcon
        cases hcon
      · intro hmem
        have := (matchWatchRegex_iff w).mpr hmem
        rw [hm] at this
        cases this
    | true =>
      rw [if_neg]
      · have hok : validate_path cwd w = .ok w := by
          have hmem := (matchWatchRegex_iff w).mp hm
          simp only [watchSpecials, List.mem_cons, List.not_mem_nil, or_false] at hmem
          rcases hmem with rfl | rfl | rfl | rfl | rfl | rfl | rfl | rfl <;>
            (rw [validate_path_eq]; decide)
        rw [hok]
        exact ⟨fun _ => (matchWatchRegex_iff w).mp hm, fun _ => rfl⟩
      · rintro ⟨_, hf⟩
        cases hf
  · intro hat
    unfold validate_watch_path
    rw [if_neg (by rintro ⟨hb, _⟩; exact hat hb)]
    cases hv : validate_path cwd w with
    | raise e =>
      rfl
    | ok r =>
      rw [validate_path_ok_eq hv]

/-- Witness for `validate_watch_path_spec`: the plain special token
`"@introduceDomain"` is accepted. -/
theorem validate_watch_path_spec_witness :
    validate_watch_path (chars "/") (chars "@introduceDomain") =
      .ok (chars "@introduceDomain") :=
  ((validate_watch_path_spec (chars "/") (chars "@introduceDomain")).1
    (by decide)).mpr (by decide)

/-! ### C8: permission tokens -/

/-- The permission-token grammar as the claim words it: the token begins with
exactly one character from `w`, `r`, `b`, `n` followed by at least one
decimal digit; any extra trailing characters after that prefix are
tolerated. -/
def claimPermToken (p : List Char) : Prop :=
  ∃ c d rest, p = c :: d :: rest ∧ (c = 'w' ∨ c = 'r' ∨ c = 'b' ∨ c = 'n') ∧
    '0' ≤ d ∧ d ≤ '9'

/-- The prefix regex of `validate_perms` accepts exactly the claim's
grammar. -/
lemma matchPermRegex_iff (p : List Char) :
    matchPermRegex p = true ↔ claimPermToken p := by
  unfold claimPermToken
  cases p with
  | nil =>
    constructor
    · intro h
      cases h
    · rintro ⟨c, d, rest, heq, -⟩
      cases heq
  | cons c t =>
    cases t with
    | nil =>
      constructor
      · intro h
        cases h
      · rintro ⟨c', d', rest', heq, -⟩
        injection heq with h1 h2
        cases h2
    | cons d rest =>
      show ((c == 'w' || c == 'r' || c == 'b' || c == 'n') &&
          (decide ('0' ≤ d) && decide (d ≤ '9'))) = true ↔ _
      constructor
      · intro h
        simp only [Bool.and_eq_true, Bool.or_eq_true, beq_iff_eq,
          decide_eq_true_eq] at h
        exact ⟨c, d, rest, rfl, by tauto, h.2.1, h.2.2⟩
      · rintro ⟨c', d', rest', heq, hc, h0, h9⟩
        injection heq with h1 h2
        injection h2 with h2a h2b
        subst h1
        subst h2a
        simp only [Bool.and_eq_true, Bool.or_eq_true, beq_iff_eq,
          decide_eq_true_eq]
        exact ⟨by tauto, h0, h9⟩

lemma findBadPerm_eq_none (l : List (List Char)) :
    findBadPerm l = none ↔ ∀ p ∈ l, matchPermRegex p = true := by
  induction l with
  | nil =>
    constructor
    · intro _ p hp
      cases hp
    · intro _
      rfl
  | cons q rest ih =>
    unfold findBadPerm
    cases hq : matchPermRegex q with
    | false =>
      rw [if_neg (by intro h; cases h)]
      constructor
      · intro h
        cases h
      · intro hall
        have := hall q (List.mem_cons_self q rest)
        rw [hq] at this
        cases this
    | true =>
      rw [if_pos rfl]
      rw [ih]
      constructor
      · intro hall p hp
        rcases List.mem_cons.mp hp with rfl | hp
        · exact hq
        · exact hall p hp
      · intro hall p hp
        exact hall p (List.mem_cons_of_mem q hp)

lemma findBadPerm_eq_some (l : List (List Char)) (p : List Char)
    (h : findBadPerm l = some p) : p ∈ l ∧ matchPermRegex p = false := by
  induction l with
  | nil =>
    cases h
  | cons q rest ih =>
    unfold findBadPerm at h
    by_cases hq : matchPermRegex q = true
    · rw [if_pos hq] at h
      obtain ⟨hm, hf⟩ := ih h
      exact ⟨List.mem_cons_of_mem q hm, hf⟩
    · rw [if_neg hq] at h
      injection h with h
      subst h
      exact ⟨List.mem_cons_self q rest, by simpa using hq⟩

/-- C8: `validate_perms` returns the sequence unchanged exactly when every
token starts with one of `wrbn` followed by a decimal digit (trailing junk
tolerated), and raises InvalidPermission carrying an offending token present
in the input when some token lacks such a prefix. -/
theorem validate_perms_spec (perms : List (List Char)) :
    ((∀ p ∈ perms, claimPermToken p) → validate_perms perms = .ok perms) ∧
    (∀ p, validate_perms perms = .raise p → p ∈ perms ∧ ¬ claimPermToken p) ∧
    ((∃ p ∈ perms, ¬ claimPermToken p) →
      ∃ p ∈ perms, ¬ claimPermToken p ∧ validate_perms perms = .raise p) := by
  refine ⟨?_, ?_, ?_⟩
  · intro hall
    unfold validate_perms
    have hn : findBadPerm perms = none :=
      (findBadPerm_eq_none perms).mpr
        (fun p hp => (matchPermRegex_iff p).mpr (hall p hp))
    rw [hn]
  · intro p hp
    unfold validate_perms at hp
    cases hf : findBadPerm perms with
    | none =>
      rw [hf] at hp
      cases hp
    | some q =>
      rw [hf] at hp
      injection hp with h
      subst h
      obtain ⟨hm, hfalse⟩ := findBadPerm_eq_some _ _ hf
      refine ⟨hm, fun hc => ?_⟩
      rw [(matchPermRegex_iff _).mpr hc] at hfalse
      cases hfalse
  · intro hex
    cases hf : findBadPerm perms with
    | none =>
      obtain ⟨p, hp, hnc⟩ := hex
      have := (findBadPerm_eq_none perms).mp hf p hp
      exact absurd ((matchPermRegex_iff p).mp this) hnc
    | some q =>
      obtain ⟨hm, hfalse⟩ := findBadPerm_eq_some _ _ hf
      refine ⟨q, hm, fun hc => ?_, ?_⟩
      · rw [(matchPermRegex_iff _).mpr hc] at hfalse
        cases hfalse
      · unfold validate_perms
        rw [hf]

/-- Witness for `validate_perms_spec`: the four canonical tokens are
accepted, a trailing-junk token `"w0garbage"` is accepted (the regex is a
prefix match), and `["x0"]` raises carrying `"x0"`. -/
theorem validate_perms_spec_witness :
    validate_perms [chars "w0", chars "r1", chars "b2", chars "n3", chars "w0garbage"] =
      .ok [chars "w0", chars "r1", chars "b2", chars "n3", chars "w0garbage"] ∧
    (chars "x0" ∈ [chars "x0"] ∧ ¬ claimPermToken (chars "x0")) :=
  ⟨(validate_perms_spec _).1 (by
      intro p hp
      simp only [List.mem_cons, List.not_mem_nil, or_false] at hp
      rcases hp with rfl | rfl | rfl | rfl | rfl
      · exact ⟨'w', '0', [], by decide, by decide, by decide, by decide⟩
      · exact ⟨'r', '1', [], by decide, by decide, by decide, by decide⟩
      · exact ⟨'b', '2', [], by decide, by decide, by decide, by decide⟩
      · exact ⟨'n', '3', [], by decide, by decide, by decide, by decide⟩
      · exact ⟨'w', '0', chars "garbage", by decide, by decide, by decide, by decide⟩),
   (validate_perms_spec [chars "x0"]).2.1 (chars "x0") (by
      unfold validate_perms findBadPerm
      rw [if_neg (by intro h; cases h)])⟩

/-! ### C9: errno translation -/

/-- C9: the errno translator always produces a code/message pair (it is a
total function); a symbolic name found in the reverse table translates to
exactly the same structured error as translating its numeric code directly,
and a symbolic name absent from the table falls back to code 0 paired with
code 0's platform message. -/
theorem error_translation (errorcode : List (Nat × List Char))
    (strerror : Nat → List Char) (name : List Char) :
    (∀ code, codeerrorGet errorcode name = some code →
      error errorcode strerror (.inl name) = error errorcode strerror (.inr code)) ∧
    (codeerrorGet errorcode name = none →
      error errorcode strerror (.inl name) = (0, strerror 0)) := by
  constructor
  · intro code h
    show ((codeerrorGet errorcode name).getD 0,
      strerror ((codeerrorGet errorcode name).getD 0)) = (code, strerror code)
    rw [h]
    rfl
  · intro h
    show ((codeerrorGet errorcode name).getD 0,
      strerror ((codeerrorGet errorcode name).getD 0)) = (0, strerror 0)
    rw [h]
    rfl

/-- Witness for `error_translation`: over a table carrying EINVAL = 22, the
symbolic and numeric translations agree, and an unknown name maps to code
0. -/
theorem error_translation_witness :
    error [(22, chars "EINVAL")] (fun _ => chars "Invalid argument")
        (.inl (chars "EINVAL")) =
      error [(22, chars "EINVAL")] (fun _ => chars "Invalid argument") (.inr 22) ∧
    error [(22, chars "EINVAL")] (fun _ => chars "Invalid argument")
        (.inl (chars "EBOGUS")) =
      (0, (fun _ => chars "Invalid argument") 0) :=
  ⟨(error_translation [(22, chars "EINVAL")] (fun _ => chars "Invalid argument")
      (chars "EINVAL")).1 22 (by decide),
   (error_translation [(22, chars "EINVAL")] (fun _ => chars "Invalid argument")
      (chars "EBOGUS")).2 (by decide)⟩

/-! ### Reliable channel I/O (`writeall`, `readall`) -/

/-- Result of running the `writeall` retry loop against an oracle for the raw
primitive: the primitive raised (the exception propagates), the loop ran out
of fuel (it would still be looping), or the loop finished normally.  A
finished run records, per call in order, the argument passed to the raw
primitive and the byte count the primitive reported. -/
inductive WriteOutcome where
  | raised : WriteOutcome
  | spin : WriteOutcome
  | done : List (List Nat × Nat) → WriteOutcome
deriving DecidableEq

/-- Python `data[-length:]` for `length ≥ 1`: the last `length` bytes. -/
def pyTail (data : List Nat) (length : Nat) : List Nat :=
  data.drop (data.length - length)

/-- The loop of `writeall`:
`while length: length -= osnmwrite(fd, data[-length:])`.  The raw primitive
is an oracle `raw` giving, for each call index, either `none` (that call
raises) or `some a` (that call reports `a` bytes written).  `fuel` bounds the
iterations so the loop is total; `writeall` supplies fuel sufficient for any
oracle that makes progress on every call. -/
def writeallRun (raw : Nat → Option Nat) (data : List Nat) :
    Nat → Nat → Nat → WriteOutcome
  | _, _, 0 => .done []
  | 0, _, _ + 1 => .spin
  | fuel + 1, i, len + 1 =>
    match raw i with
    | none => .raised
    | some a =>
      match writeallRun raw data fuel (i + 1) (len + 1 - a) with
      | .raised => .raised
      | .spin => .spin
      | .done t => .done ((pyTail data (len + 1), a) :: t)

/-- `pyxs.helpers.writeall fd data` run against the raw-write oracle. -/
def writeall (raw : Nat → Option Nat) (data : List Nat) : WriteOutcome :=
  writeallRun raw data data.length 0 data.length

/-- Bytes remaining before the k-th call of a `writeall` loop that starts
with `L` bytes remaining at call index `i`. -/
def remWAt (raw : Nat → Option Nat) (i L : Nat) : Nat → Nat
  | 0 => L
  | k + 1 => remWAt raw i L k - (raw (i + k)).getD 0

lemma remWAt_shift (raw : Nat → Option Nat) (i L a : Nat) (h : raw i = some a) :
    ∀ k, remWAt raw (i + 1) (L - a) k = remWAt raw i L (k + 1) := by
  intro k
  induction k with
  | zero =>
    show L - a = remWAt raw i L 0 - (raw (i + 0)).getD 0
    rw [Nat.add_zero, h]
    rfl
  | succ m ih =>
    show remWAt raw (i + 1) (L - a) m - (raw (i + 1 + m)).getD 0 = _
    rw [ih]
    show _ = remWAt raw i L (m + 1) - (raw (i + (m + 1))).getD 0
    rw [show i + 1 + m = i + (m + 1) by omega]

/-- Core invariant of the `writeall` loop: starting with `L ≤ len(data)`
bytes remaining at call index `i`, and given that every call that happens
with bytes remaining reports between 1 and the remaining count, the run
either propagates a raise of the primitive or finishes with the reported
counts summing to `L` and the accepted prefixes of the passed suffixes
concatenating to the remaining suffix of `data`. -/
lemma writeallRun_spec (raw : Nat → Option Nat) (data : List Nat) :
    ∀ L, L ≤ data.length → ∀ fuel i, L ≤ fuel →
    (∀ k a, remWAt raw i L k ≠ 0 → raw (i + k) = some a →
      1 ≤ a ∧ a ≤ remWAt raw i L k) →
    (∃ m, remWAt raw i L m ≠ 0 ∧ raw (i + m) = none ∧
      writeallRun raw data fuel i L = .raised) ∨
    (∃ t, writeallRun raw data fuel i L = .done t ∧
      (t.map Prod.snd).sum = L ∧
      (t.map fun pr => pr.1.take pr.2).join = data.drop (data.length - L)) := by
  intro L
  induction L using Nat.strong_induction_on with
  | _ L IH =>
    intro hLdata fuel i hLfuel H
    cases L with
    | zero =>
      right
      refine ⟨[], ?_, rfl, ?_⟩
      · cases fuel <;> rfl
      · rw [Nat.sub_zero, List.drop_length]
        rfl
    | succ L' =>
      cases fuel with
      | zero => omega
      | succ fuel' =>
        cases hra : raw i with
        | none =>
          left
          refine ⟨0, ?_, ?_, ?_⟩
          · intro h0
            cases h0
          · show raw (i + 0) = none
            rw [Nat.add_zero]
            exact hra
          · show writeallRun raw data (fuel' + 1) i (L' + 1) = .raised
            simp only [writeallRun, hra]
        | some a =>
          have hbound : 1 ≤ a ∧ a ≤ L' + 1 := by
            have h0 : remWAt raw i (L' + 1) 0 ≠ 0 := by
              intro hx
              cases hx
            have hr0 : raw (i + 0) = some a := by
              rw [Nat.add_zero]
              exact hra
            exact H 0 a h0 hr0
          have hlt : L' + 1 - a < L' + 1 := by omega
          have hH' : ∀ k a', remWAt raw (i + 1) (L' + 1 - a) k ≠ 0 →
              raw (i + 1 + k) = some a' →
              1 ≤ a' ∧ a' ≤ remWAt raw (i + 1) (L' + 1 - a) k := by
            intro k a' hk hr
            rw [remWAt_shift raw i (L' + 1) a hra k] at hk ⊢
            refine H (k + 1) a' hk ?_
            rw [show i + (k + 1) = i + 1 + k by omega]
            exact hr
          rcases IH (L' + 1 - a) hlt (by omega) fuel' (i + 1) (by omega) hH' with
            ⟨m, hm0, hmn, hrun⟩ | ⟨t, hrun, hsum, hjoin⟩
          · left
            refine ⟨m + 1, ?_, ?_, ?_⟩
            · rw [← remWAt_shift raw i (L' + 1) a hra m]
              exact hm0
            · rw [show i + (m + 1) = i + 1 + m by omega]
              exact hmn
            · show writeallRun raw data (fuel' + 1) i (L' + 1) = .raised
              simp only [writeallRun, hra]
              rw [hrun]
          · right
            refine ⟨(pyTail data (L' + 1), a) :: t, ?_, ?_, ?_⟩
            · show writeallRun raw data (fuel' + 1) i (L' + 1) =
                .done ((pyTail data (L' + 1), a) :: t)
              simp only [writeallRun, hra]
              rw [hrun]
            · show a + (t.map Prod.snd).sum = L' + 1
              rw [hsum]
              omega
            · show (pyTail data (L' + 1)).take a ++
                (t.map fun pr => pr.1.take pr.2).join =
                data.drop (data.length - (L' + 1))
              rw [hjoin]
              unfold pyTail
              have hsplit := List.take_append_drop a
                (data.drop (data.length - (L' + 1)))
              conv_rhs => rw [← hsplit]
              congr 1
              rw [List.drop_drop]
              congr 1
              omega

/-- C1: against a raw write primitive that, on each call made with bytes
remaining, either raises or reports between 1 and the remaining byte count,
`writeall` never loops forever and never returns normally after a short
transfer: it either propagates a raise, or finishes with the reported counts
summing to `len(data)` and the accepted prefixes of its per-call arguments
concatenating, in call order, to exactly `data`. -/
theorem writeall_complete (raw : Nat → Option Nat) (data : List Nat)
    (h : ∀ k a, remWAt raw 0 data.length k ≠ 0 → raw k = some a →
      1 ≤ a ∧ a ≤ remWAt raw 0 data.length k) :
    writeall raw data = .raised ∨
    ∃ t, writeall raw data = .done t ∧
      (t.map Prod.snd).sum = data.length ∧
      (t.map fun pr => pr.1.take pr.2).join = data := by
  have h' : ∀ k a, remWAt raw 0 data.length k ≠ 0 → raw (0 + k) = some a →
      1 ≤ a ∧ a ≤ remWAt raw 0 data.length k := by
    intro k a hk hr
    refine h k a hk ?_
    rwa [Nat.zero_add] at hr
  rcases writeallRun_spec raw data data.length le_rfl data.length 0 le_rfl h' with
    ⟨m, -, -, hrun⟩ | ⟨t, hrun, hsum, hjoin⟩
  · left
    exact hrun
  · right
    refine ⟨t, hrun, hsum, ?_⟩
    rwa [Nat.sub_self, List.drop_zero] at hjoin

/-- Witness for `writeall_complete`: a primitive reporting one byte per
call. -/
theorem writeall_complete_witness :
    writeall (fun _ => some 1) [7, 8] = .raised ∨
    ∃ t, writeall (fun _ => some 1) [7, 8] = .done t ∧
      (t.map Prod.snd).sum = ([7, 8] : List Nat).length ∧
      (t.map fun pr => pr.1.take pr.2).join = [7, 8] :=
  writeall_complete (fun _ => some 1) [7, 8] (by
    intro k a hk hr
    injection hr with hr
    subst hr
    exact ⟨le_rfl, Nat.one_le_iff_ne_zero.mpr hk⟩)

/-- C5 counterexample: with a stub that accepts exactly one byte per call
(so at most `k = 1` bytes per call), the arguments passed to the raw write
primitive are the successive remaining suffixes of the data, so their
concatenation is `[97, 98] ++ [98] = [97, 98, 98]`, not the data
`[97, 98]`. -/
theorem writeall_args_join_cex :
    writeall (fun _ => some 1) [97, 98] = .done [([97, 98], 1), ([98], 1)] ∧
    (([([97, 98], 1), ([98], 1)].map Prod.fst).join = [97, 98, 98] ∧
      ([97, 98, 98] : List Nat) ≠ [97, 98]) := by
  decide

/-- C5 as amended: for every bound `k ≥ 1` and a stub that never raises and
accepts, per call, at least 1 and at most `k` of the remaining bytes,
`writeall` finishes and the accepted prefixes of its per-call arguments (the
first accepted-count bytes of each passed suffix) concatenate, in call order,
to exactly `data`. -/
theorem writeall_accepted_join (raw : Nat → Option Nat) (data : List Nat)
    (k : Nat) (hk : 1 ≤ k)
    (hub : ∀ j a, raw j = some a → a ≤ k)
    (hnor : ∀ j, raw j ≠ none)
    (h : ∀ j a, remWAt raw 0 data.length j ≠ 0 → raw j = some a →
      1 ≤ a ∧ a ≤ remWAt raw 0 data.length j) :
    ∃ t, writeall raw data = .done t ∧
      (t.map fun pr => pr.1.take pr.2).join = data := by
  have h' : ∀ j a, remWAt raw 0 data.length j ≠ 0 → raw (0 + j) = some a →
      1 ≤ a ∧ a ≤ remWAt raw 0 data.length j := by
    intro j a hj hr
    refine h j a hj ?_
    rwa [Nat.zero_add] at hr
  rcases writeallRun_spec raw data data.length le_rfl data.length 0 le_rfl h' with
    ⟨m, -, hmn, -⟩ | ⟨t, hrun, -, hjoin⟩
  · exact absurd hmn (hnor (0 + m))
  · refine ⟨t, hrun, ?_⟩
    rwa [Nat.sub_self, List.drop_zero] at hjoin

/-- Witness for `writeall_accepted_join` with `k = 1`. -/
theorem writeall_accepted_join_witness :
    ∃ t, writeall (fun _ => some 1) [97, 98] = .done t ∧
      (t.map fun pr => pr.1.take pr.2).join = [97, 98] :=
  writeall_accepted_join (fun _ => some 1) [97, 98] 1 le_rfl
    (by
      intro j a hr
      injection hr with hr
      subst hr
      exact le_rfl)
    (by
      intro j hr
      cases hr)
    (by
      intro j a hj hr
      injection hr with hr
      subst hr
      exact ⟨le_rfl, Nat.one_le_iff_ne_zero.mpr hj⟩)

/-- Result of the `readall` loop: the list of chunks accumulated in order
(the Python function returns their concatenation, the join of this list). -/
inductive ReadOutcome where
  | raised : ReadOutcome
  | spin : ReadOutcome
  | done : List (List Nat) → ReadOutcome
deriving DecidableEq

/-- The loop of `readall`:
`while length: chunks.append(osnmread(fd, length)); length -= len(chunks[-1])`,
with the raw read primitive as an oracle from the call index to either `none`
(that call raises) or the chunk it returns. -/
def readallRun (raw : Nat → Option (List Nat)) : Nat → Nat → Nat → ReadOutcome
  | _, _, 0 => .done []
  | 0, _, _ + 1 => .spin
  | fuel + 1, i, len + 1 =>
    match raw i with
    | none => .raised
    | some c =>
      match readallRun raw fuel (i + 1) (len + 1 - c.length) with
      | .raised => .raised
      | .spin => .spin
      | .done cs => .done (c :: cs)

/-- `pyxs.helpers.readall fd length` run against the raw-read oracle; a
`done cs` outcome models the Python return value `join(cs)`. -/
def readall (raw : Nat → Option (List Nat)) (n : Nat) : ReadOutcome :=
  readallRun raw n 0 n

/-- Bytes still to read before the k-th call of a `readall` loop that starts
with `L` bytes requested at call index `i`. -/
def remRAt (raw : Nat → Option (List Nat)) (i L : Nat) : Nat → Nat
  | 0 => L
  | k + 1 => remRAt raw i L k - ((raw (i + k)).getD []).length

lemma remRAt_shift (raw : Nat → Option (List Nat)) (i L : Nat) (c : List Nat)
    (h : raw i = some c) :
    ∀ k, remRAt raw (i + 1) (L - c.length) k = remRAt raw i L (k + 1) := by
  intro k
  induction k with
  | zero =>
    show L - c.length = remRAt raw i L 0 - ((raw (i + 0)).getD []).length
    rw [Nat.add_zero, h]
    rfl
  | succ m ih =>
    show remRAt raw (i + 1) (L - c.length) m - ((raw (i + 1 + m)).getD []).length = _
    rw [ih]
    show _ = remRAt raw i L (m + 1) - ((raw (i + (m + 1))).getD []).length
    rw [show i + 1 + m = i + (m + 1) by omega]

/-- Core invariant of the `readall` loop: starting with `L` bytes requested
at call index `i`, when every call made with bytes remaining either raises or
returns a chunk of between 1 and the remaining count of bytes, the run either
propagates a raise or finishes with a chunk list that joins to exactly `L`
bytes and whose entries are, in call order, exactly the chunks the primitive
returned. -/
lemma readallRun_spec (raw : Nat → Option (List Nat)) :
    ∀ L fuel i, L ≤ fuel →
    (∀ k c, remRAt raw i L k ≠ 0 → raw (i + k) = some c →
      1 ≤ c.length ∧ c.length ≤ remRAt raw i L k) →
    (∃ m, remRAt raw i L m ≠ 0 ∧ raw (i + m) = none ∧
      readallRun raw fuel i L = .raised) ∨
    (∃ cs, readallRun raw fuel i L = .done cs ∧ cs.join.length = L ∧
      ∀ k, k < cs.length → raw (i + k) = some (cs.getD k [])) := by
  intro L
  induction L using Nat.strong_induction_on with
  | _ L IH =>
    intro fuel i hLfuel H
    cases L with
    | zero =>
      right
      refine ⟨[], ?_, rfl, ?_⟩
      · cases fuel <;> rfl
      · intro k hk
        cases hk
    | succ L' =>
      cases fuel with
      | zero => omega
      | succ fuel' =>
        cases hra : raw i with
        | none =>
          left
          refine ⟨0, ?_, ?_, ?_⟩
          · intro h0
            cases h0
          · show raw (i + 0) = none
            rw [Nat.add_zero]
            exact hra
          · show readallRun raw (fuel' + 1) i (L' + 1) = .raised
            simp only [readallRun, hra]
        | some c =>
          have hbound : 1 ≤ c.length ∧ c.length ≤ L' + 1 := by
            have h0 : remRAt raw i (L' + 1) 0 ≠ 0 := by
              intro hx
              cases hx
            have hr0 : raw (i + 0) = some c := by
              rw [Nat.add_zero]
              exact hra
            exact H 0 c h0 hr0
          have hlt : L' + 1 - c.length < L' + 1 := by omega
          have hH' : ∀ k c', remRAt raw (i + 1) (L' + 1 - c.length) k ≠ 0 →
              raw (i + 1 + k) = some c' →
              1 ≤ c'.length ∧ c'.length ≤ remRAt raw (i + 1) (L' + 1 - c.length) k := by
            intro k c' hk hr
            rw [remRAt_shift raw i (L' + 1) c hra k] at hk ⊢
            refine H (k + 1) c' hk ?_
            rw [show i + (k + 1) = i + 1 + k by omega]
            exact hr
          rcases IH (L' + 1 - c.length) hlt fuel' (i + 1) (by omega) hH' with
            ⟨m, hm0, hmn, hrun⟩ | ⟨cs, hrun, hlen, hcalls⟩
          · left
            refine ⟨m + 1, ?_, ?_, ?_⟩
            · rw [← remRAt_shift raw i (L' + 1) c hra m]
              exact hm0
            · rw [show i + (m + 1) = i + 1 + m by omega]
              exact hmn
            · show readallRun raw (fuel' + 1) i (L' + 1) = .raised
              simp only [readallRun, hra]
              rw [hrun]
          · right
            refine ⟨c :: cs, ?_, ?_, ?_⟩
            · show readallRun raw (fuel' + 1) i (L' + 1) = .done (c :: cs)
              simp only [readallRun, hra]
              rw [hrun]
            · show (c ++ cs.join).length = L' + 1
              rw [List.length_append, hlen]
              omega
            · intro k hk
              cases k with
              | zero =>
                show raw (i + 0) = some ((c :: cs).getD 0 [])
                rw [Nat.add_zero]
                exact hra
              | succ m =>
                rw [show i + (m + 1) = i + 1 + m by omega, List.getD_cons_succ]
                refine hcalls m ?_
                simpa using hk

/-- C2: against a raw read primitive that, on each call made with bytes
still requested, either raises or returns between 1 and the requested
remaining count of bytes, `readall` never loops forever and never returns a
short result: it either propagates a raise, or finishes with chunks joining
to exactly `n` bytes, the chunk list being, in call order, exactly what the
primitive returned. -/
theorem readall_exact (raw : Nat → Option (List Nat)) (n : Nat)
    (h : ∀ k c, remRAt raw 0 n k ≠ 0 → raw k = some c →
      1 ≤ c.length ∧ c.length ≤ remRAt raw 0 n k) :
    readall raw n = .raised ∨
    ∃ cs, readall raw n = .done cs ∧ cs.join.length = n ∧
      ∀ k, k < cs.length → raw k = some (cs.getD k []) := by
  have h' : ∀ k c, remRAt raw 0 n k ≠ 0 → raw (0 + k) = some c →
      1 ≤ c.length ∧ c.length ≤ remRAt raw 0 n k := by
    intro k c hk hr
    refine h k c hk ?_
    rwa [Nat.zero_add] at hr
  rcases readallRun_spec raw n n 0 le_rfl h' with
    ⟨m, -, -, hrun⟩ | ⟨cs, hrun, hlen, hcalls⟩
  · left
    exact hrun
  · right
    refine ⟨cs, hrun, hlen, ?_⟩
    intro k hk
    have := hcalls k hk
    rwa [Nat.zero_add] at this

/-- Witness for `readall_exact`: a primitive returning a one-byte chunk per
call. -/
theorem readall_exact_witness :
    readall (fun _ => some [9]) 2 = .raised ∨
    ∃ cs, readall (fun _ => some [9]) 2 = .done cs ∧ cs.join.length = 2 ∧
      ∀ k, k < cs.length → (fun _ => some [9]) k = some (cs.getD k []) :=
  readall_exact (fun _ => some [9]) 2 (by
    intro k c hk hr
    injection hr with hr
    subst hr
    exact ⟨le_rfl, Nat.one_le_iff_ne_zero.mpr hk⟩)

end Pyxs
